import Mathlib

/-!
Verification of the go-cache LRU cache (package `cache`).

The Go implementation keeps a circular doubly-linked list of nodes plus a
hashmap from keys to nodes.  We embed the heap shallowly: every node lives in
an arena addressed by a natural number (Go pointers become arena indices, the
`nil` head pointer becomes `Option Nat`), the hashmap becomes an association
list with unique keys, and each Go function becomes a Lean function that
threads the cache record explicitly.  The single spot where the Go code can
dereference a nil pointer (the eviction branch of `Set` when the list is
empty) is modelled by an `Option` result.
-/

namespace GoCache

/-- A node in the circular doubly-linked list (Go struct `cacheNode`).
`prev` and `next` are arena indices standing for the Go pointers. -/
structure cacheNode where
  prev : Nat
  next : Nat
  value : String
  key : String
deriving Repr, DecidableEq

instance : Inhabited cacheNode := ⟨⟨0, 0, "", ""⟩⟩

/-- The heap of nodes: a total map from arena indices to nodes. -/
abbrev Arena := Nat → cacheNode

/-- Store a node at index `i` of the arena (a Go pointer write). -/
def writeNode (a : Arena) (i : Nat) (nd : cacheNode) : Arena :=
  fun j => if j = i then nd else a j

/-- The cache record (Go struct `LruCache`).  `head` is `none` exactly when Go
keeps a nil head pointer; `fresh` is the allocator: indices `≥ fresh` are
unused, so Go's guarantee that a newly allocated node has a new address is
mirrored by allocating at `fresh`. -/
structure LruCache where
  head : Option Nat
  capacity : Int
  store : List (String × Nat)
  arena : Arena
  fresh : Nat

/-- Lookup in the store (Go `cache.store[key]`, returning the ok flag as
`Option`). -/
def lookupStore : List (String × Nat) → String → Option Nat
  | [], _ => none
  | (k, n) :: rest, key => if k = key then some n else lookupStore rest key

/-- Map assignment `cache.store[key] = n`: overwrite the binding if the key is
present, otherwise add a new binding. -/
def setStore : List (String × Nat) → String → Nat → List (String × Nat)
  | [], key, n => [(key, n)]
  | (k, m) :: rest, key, n =>
      if k = key then (key, n) :: rest else (k, m) :: setStore rest key n

/-- Map deletion `delete(cache.store, key)`. -/
def eraseStore : List (String × Nat) → String → List (String × Nat)
  | [], _ => []
  | (k, m) :: rest, key => if k = key then rest else (k, m) :: eraseStore rest key

/-- `addToHead` creates a new node and makes it the head of the DLL
(Go `(*LruCache).addToHead`).  Returns the index of the new node together with
the new cache state. -/
def addToHead (cache : LruCache) (key value : String) : Nat × LruCache :=
  let n := cache.fresh
  match cache.head with
  | none =>
      -- empty cache: the node links to itself
      let node : cacheNode := { prev := n, next := n, value := value, key := key }
      (n, { cache with arena := writeNode cache.arena n node, head := some n,
                       fresh := n + 1 })
  | some h =>
      -- node.next = cache.head; node.prev = cache.head.prev;
      -- cache.head.prev.next = &node; cache.head.prev = &node; cache.head = &node
      let hprev := (cache.arena h).prev
      let node : cacheNode := { prev := hprev, next := h, value := value, key := key }
      let a1 := writeNode cache.arena n node
      let a2 := writeNode a1 hprev { a1 hprev with next := n }
      let a3 := writeNode a2 h { a2 h with prev := n }
      (n, { cache with arena := a3, head := some n, fresh := n + 1 })

/-- `addToTail` adds a new node to the end of the DLL: `addToHead` followed by
shifting the head to its successor (Go `(*LruCache).addToTail`). -/
def addToTail (cache : LruCache) (key value : String) : Nat × LruCache :=
  let r := addToHead cache key value
  (r.1, { r.2 with head := some ((r.2.arena r.1).next) })

/-- `removeFromList` removes the node at index `n` from the DLL
(Go `(*LruCache).removeFromList`). -/
def removeFromList (cache : LruCache) (n : Nat) : LruCache :=
  let node := cache.arena n
  if node.next = n then
    -- single node case
    { cache with head := none }
  else
    -- head case, then relink the neighbours
    let c1 := if cache.head = some n then { cache with head := some node.next }
              else cache
    let a1 := writeNode c1.arena node.prev { c1.arena node.prev with next := node.next }
    let a2 := writeNode a1 node.next { a1 node.next with prev := node.prev }
    { c1 with arena := a2 }

/-- `Get` retrieves a value by key; on a hit the entry is removed and
re-inserted at the head (Go `(*LruCache).Get` of the `cacheNode` variant).
The result is `(value, ok, new state)`. -/
def Get (cache : LruCache) (key : String) : String × Bool × LruCache :=
  match lookupStore cache.store key with
  | none => ("", false, cache)
  | some n =>
      let c1 := removeFromList cache n
      let r := addToHead c1 key ((c1.arena n).value)
      let c3 := { r.2 with store := setStore r.2.store key r.1 }
      ((r.2.arena n).value, true, c3)

/-- `Get` of the `CacheNode` variant embedded in the repository.  Its only
difference from `Get`: it calls `addToHead(key, value)` where `value` is the
function's named return, still holding the zero value `""` at that point, so
the promoted node is re-inserted with an empty value. -/
def GetV2 (cache : LruCache) (key : String) : String × Bool × LruCache :=
  match lookupStore cache.store key with
  | none => ("", false, cache)
  | some n =>
      let c1 := removeFromList cache n
      let r := addToHead c1 key ""
      let c3 := { r.2 with store := setStore r.2.store key r.1 }
      ((r.2.arena n).value, true, c3)

/-- `Set` adds or updates a key-value pair (Go `(*LruCache).Set`).  The result
is `none` exactly when the Go code would dereference a nil head pointer
(eviction triggered on an empty list, impossible for a validly constructed
cache); otherwise `some (updated, new state)`. -/
def Set (cache : LruCache) (key value : String) : Option (Bool × LruCache) :=
  match lookupStore cache.store key with
  | some n =>
      -- update in place, without touching the list
      some (true, { cache with
        arena := writeNode cache.arena n { cache.arena n with value := value } })
  | none =>
      let step : Option LruCache :=
        if (cache.store.length : Int) = cache.capacity then
          match cache.head with
          | none => none   -- Go: cache.head.prev dereferences nil
          | some h =>
              let tail := (cache.arena h).prev
              let c1 := removeFromList cache tail
              some { c1 with store := eraseStore c1.store ((c1.arena tail).key) }
        else some cache
      match step with
      | none => none
      | some c1 =>
          let r := addToTail c1 key value
          some (false, { r.2 with store := setStore r.2.store key r.1 })

/-- `Delete` removes the entry for `key`, returning whether it existed
(Go `(*LruCache).Delete` of the `cacheNode` variant). -/
def Delete (cache : LruCache) (key : String) : Bool × LruCache :=
  match lookupStore cache.store key with
  | none => (false, cache)
  | some n =>
      let c1 := removeFromList cache n
      (true, { c1 with store := eraseStore c1.store ((c1.arena n).key) })

/-- Getter for `cache.capacity` (Go `(*LruCache).Capacity`). -/
def Capacity (cache : LruCache) : Int := cache.capacity

/-- Current cache size (Go `(*LruCache).Len`). -/
def Len (cache : LruCache) : Nat := cache.store.length

/-- `NewCache` creates an LRU cache with the given capacity, failing when the
capacity is not positive (Go `NewCache`). -/
def NewCache (capacity : Int) : Option LruCache :=
  if capacity ≤ 0 then none
  else some { head := none, capacity := capacity, store := [],
              arena := fun _ => default, fresh := 0 }

/-- Single-node checks done by the Go test helper `verifyIntegrity` for the
node under the cursor: bidirectional links and agreement with the store. -/
def checkNode (cache : LruCache) (cur : Nat) : Bool :=
  let nd := cache.arena cur
  decide ((cache.arena nd.next).prev = cur) &&
  decide ((cache.arena nd.prev).next = cur) &&
  decide (lookupStore cache.store nd.key = some cur)

/-- The traversal loop of the Go test helper `verifyIntegrity`: walk `next`
pointers collecting visited nodes until a node repeats; the walk fails if the
revisit happens before exactly `len(store)` nodes were seen, if a node check
fails, or if more nodes than `len(store)` are seen (the Go safety check,
realised here as running out of fuel). -/
def verifyLoop (cache : LruCache) : Nat → List Nat → Nat → Option (List Nat)
  | 0, _, _ => none
  | fuel + 1, visited, cur =>
      if cur ∈ visited then
        if visited.length = cache.store.length then some visited else none
      else
        if checkNode cache cur then
          verifyLoop cache fuel (visited ++ [cur]) ((cache.arena cur).next)
        else none

/-- The Go test helper `verifyIntegrity`: `true` exactly when no inconsistency
is found.  An empty store requires a nil head; a non-empty store requires
`len(store) ≤ capacity`, a well-formed circular traversal from `head`, and
every store entry visited by that traversal. -/
def verifyIntegrity (cache : LruCache) : Bool :=
  if cache.store.length = 0 then
    decide (cache.head = none)
  else if (cache.store.length : Int) > cache.capacity then
    false
  else
    match cache.head with
    | none => false
    | some h =>
        match verifyLoop cache (cache.store.length + 1) [] h with
        | none => false
        | some visited => cache.store.all fun p => decide (p.2 ∈ visited)

/-- A mutex operation on the cache-wide lock. -/
inductive LockEvent where
  | acquire
  | release
deriving DecidableEq, Repr

/-- Mutex operations executed by Go `Get`, in source order: `cache.mutex.Lock()`
at entry, and the deferred `cache.mutex.Unlock()` run on every exit path
(missing key or hit). -/
def GetLockEvents : List LockEvent := [LockEvent.acquire, LockEvent.release]

/-- Mutex operations executed by Go `Set`: `cache.mutex.Lock()` at entry and a
deferred `cache.mutex.Unlock()` on every exit path (update, eviction, plain
insert). -/
def SetLockEvents : List LockEvent := [LockEvent.acquire, LockEvent.release]

/-- Mutex operations executed by Go `Delete`: `cache.mutex.Lock()` at entry and
a deferred `cache.mutex.Unlock()` on both exit paths. -/
def DeleteLockEvents : List LockEvent := [LockEvent.acquire, LockEvent.release]

/-- Mutex operations executed by Go `Capacity`: the method body is a bare read
of `cache.capacity` with no mutex call at all. -/
def CapacityLockEvents : List LockEvent := []

/-- Mutex operations executed by Go `Len`: the method body is a bare read of
`len(cache.store)` with no mutex call at all. -/
def LenLockEvents : List LockEvent := []

/-- Adjacency in the circular list: `y` directly follows `x`. -/
def adj (a : Arena) (x y : Nat) : Prop := (a x).next = y ∧ (a y).prev = x

/-- The indices in `l`, read from the head, form the circular doubly-linked
list: consecutive entries are adjacent and the last wraps around to the
first. -/
def IsRing (a : Arena) (l : List Nat) : Prop :=
  List.Chain' (adj a) l ∧ ∀ x ∈ l.getLast?, ∀ y ∈ l.head?, adj a x y

/-- The full integrity invariant of a cache state, with `l` the list of node
indices in ring order starting at the head: the ring is well formed, the head
agrees with it, no live node sits at or above the allocation mark, and the
store is in bijection with the ring with matching keys. -/
structure Inv (cache : LruCache) (l : List Nat) : Prop where
  ring : IsRing cache.arena l
  nodup : l.Nodup
  head_eq : cache.head = l.head?
  bound : ∀ x ∈ l, x < cache.fresh
  store_perm : (cache.store.map Prod.snd).Perm l
  store_key : ∀ p ∈ cache.store, (cache.arena p.2).key = p.1
  keys_nodup : (cache.store.map Prod.fst).Nodup
  size_cap : (cache.store.length : Int) ≤ cache.capacity
  cap_pos : 0 < cache.capacity

/-- A cache state satisfying the integrity invariant for some ring order. -/
def CacheInv (cache : LruCache) : Prop := ∃ l, Inv cache l

/-- States produced by `NewCache` followed by any sequence of public
operations. -/
inductive Reachable : LruCache → Prop where
  | new (cap : Int) (c : LruCache) : NewCache cap = some c → Reachable c
  | get (c : LruCache) (k : String) : Reachable c → Reachable (Get c k).2.2
  | set (c : LruCache) (k v : String) (u : Bool) (c' : LruCache) :
      Reachable c → Set c k v = some (u, c') → Reachable c'
  | del (c : LruCache) (k : String) : Reachable c → Reachable (Delete c k).2

theorem writeNode_same (a : Arena) (i : Nat) (nd : cacheNode) :
    writeNode a i nd i = nd := by
  simp [writeNode]

theorem writeNode_other (a : Arena) {i j : Nat} (nd : cacheNode) (h : j ≠ i) :
    writeNode a i nd j = a j := by
  simp [writeNode, h]

theorem getLast_not_mem_dropLast {l : List Nat} (hl : l ≠ []) (hnd : l.Nodup) :
    l.getLast hl ∉ l.dropLast := by
  intro hmem
  have h2 := List.dropLast_append_getLast hl
  rw [← h2] at hnd
  rcases List.nodup_append.1 hnd with ⟨-, -, hdisj⟩
  exact hdisj hmem (by simp)

theorem chain_adj_mono {a a' : Arena} :
    ∀ l : List Nat, List.Chain' (adj a) l →
      (∀ x ∈ l.dropLast, (a' x).next = (a x).next) →
      (∀ y ∈ l.tail, (a' y).prev = (a y).prev) →
      List.Chain' (adj a') l
  | [], _, _, _ => List.chain'_nil
  | [x], _, _, _ => List.chain'_singleton x
  | x :: y :: t, h, hn, hp => by
      rw [List.chain'_cons] at h
      rw [List.chain'_cons]
      refine ⟨⟨?_, ?_⟩, ?_⟩
      · rw [hn x (by simp), h.1.1]
      · rw [hp y (by simp), h.1.2]
      · exact chain_adj_mono (y :: t) h.2
          (fun z hz => hn z (List.mem_cons_of_mem x hz))
          (fun z hz => hp z (List.mem_cons_of_mem y hz))

theorem IsRing.swap {a : Arena} (xs ys : List Nat) (h : IsRing a (xs ++ ys)) :
    IsRing a (ys ++ xs) := by
  rcases eq_or_ne xs [] with rfl | hxs
  · simpa using h
  rcases eq_or_ne ys [] with rfl | hys
  · simpa using h
  obtain ⟨hchain, hwrap⟩ := h
  rw [List.chain'_append] at hchain
  obtain ⟨cxs, cys, hlink⟩ := hchain
  refine ⟨?_, ?_⟩
  · rw [List.chain'_append]
    refine ⟨cys, cxs, ?_⟩
    intro x hx y hy
    exact hwrap x (List.mem_getLast?_append_of_mem_getLast? hx)
      y (List.mem_head?_append_of_mem_head? hy)
  · intro x hx y hy
    refine hlink x ?_ y ?_
    · rw [List.getLast?_append_of_ne_nil _ hxs] at hx; exact hx
    · rw [List.head?_append_of_ne_nil _ hys] at hy; exact hy

theorem addToHead_fields (cache : LruCache) (key value : String) {x : Nat}
    (hx : x ≠ cache.fresh) :
    ((addToHead cache key value).2.arena x).key = (cache.arena x).key ∧
    ((addToHead cache key value).2.arena x).value = (cache.arena x).value := by
  cases hh : cache.head with
  | none => simp [addToHead, hh, writeNode, hx]
  | some hd =>
      simp only [addToHead, hh]
      set n := cache.fresh with hndef
      set node : cacheNode :=
        { prev := (cache.arena hd).prev, next := hd, value := value, key := key }
        with hnode
      set a1 := writeNode cache.arena n node with ha1
      set a2 := writeNode a1 (cache.arena hd).prev
        { a1 (cache.arena hd).prev with next := n } with ha2
      have f2 : ∀ y, ((writeNode a2 hd { a2 hd with prev := n }) y).key = (a2 y).key ∧
          ((writeNode a2 hd { a2 hd with prev := n }) y).value = (a2 y).value := by
        intro y
        by_cases hy : y = hd
        · subst hy; rw [writeNode_same]; exact ⟨rfl, rfl⟩
        · rw [writeNode_other _ _ hy]; exact ⟨rfl, rfl⟩
      have f1 : ∀ y, (a2 y).key = (a1 y).key ∧ (a2 y).value = (a1 y).value := by
        intro y
        by_cases hy : y = (cache.arena hd).prev
        · subst hy; rw [ha2, writeNode_same]; exact ⟨rfl, rfl⟩
        · rw [ha2, writeNode_other _ _ hy]; exact ⟨rfl, rfl⟩
      have f0 : a1 x = cache.arena x := writeNode_other _ _ hx
      refine ⟨?_, ?_⟩
      · rw [(f2 x).1, (f1 x).1, f0]
      · rw [(f2 x).2, (f1 x).2, f0]

theorem addToHead_spec {cache : LruCache} {l : List Nat}
    (hring : IsRing cache.arena l) (hnodup : l.Nodup)
    (hhead : cache.head = l.head?) (hbound : ∀ x ∈ l, x < cache.fresh)
    (key value : String) :
    (addToHead cache key value).1 = cache.fresh ∧
    IsRing (addToHead cache key value).2.arena (cache.fresh :: l) ∧
    (cache.fresh :: l).Nodup ∧
    (addToHead cache key value).2.head = some cache.fresh ∧
    (addToHead cache key value).2.fresh = cache.fresh + 1 ∧
    (addToHead cache key value).2.store = cache.store ∧
    (addToHead cache key value).2.capacity = cache.capacity ∧
    ((addToHead cache key value).2.arena cache.fresh).key = key ∧
    ((addToHead cache key value).2.arena cache.fresh).value = value ∧
    ((addToHead cache key value).2.arena cache.fresh).next
      = (l.head?).getD cache.fresh := by
  have hfresh : cache.fresh ∉ l := fun hm => lt_irrefl _ (hbound _ hm)
  have hnodup' : (cache.fresh :: l).Nodup := List.nodup_cons.2 ⟨hfresh, hnodup⟩
  rcases hl : l with _ | ⟨h, t⟩
  · subst hl
    have hh : cache.head = none := by simpa using hhead
    have hstep : addToHead cache key value = (cache.fresh,
        { cache with
            arena := writeNode cache.arena cache.fresh
              { prev := cache.fresh, next := cache.fresh, value := value, key := key },
            head := some cache.fresh, fresh := cache.fresh + 1 }) := by
      simp only [addToHead, hh]
    rw [hstep]
    refine ⟨rfl, ⟨List.chain'_singleton _, ?_⟩, hnodup', rfl, rfl, rfl, rfl,
      by simp [writeNode], by simp [writeNode], by simp [writeNode]⟩
    intro x hx y hy
    have hx' : cache.fresh = x := by simpa using hx
    have hy' : cache.fresh = y := by simpa using hy
    subst hx'; subst hy'
    exact ⟨by simp [writeNode], by simp [writeNode]⟩
  · subst hl
    have hh : cache.head = some h := by simpa using hhead
    have hne : (h :: t) ≠ ([] : List Nat) := by simp
    have hlast : (h :: t).getLast? = some ((h :: t).getLast hne) :=
      List.getLast?_eq_getLast _ hne
    have hqmem : (h :: t).getLast hne ∈ h :: t := List.getLast_mem hne
    set q := (h :: t).getLast hne with hqdef
    have hwrap := hring.2 q (by rw [hlast]; rfl) h rfl
    have hqnext : (cache.arena q).next = h := hwrap.1
    have hhprev : (cache.arena h).prev = q := hwrap.2
    have hn_ne_h : h ≠ cache.fresh := fun e => hfresh (e ▸ List.mem_cons_self h t)
    have hn_ne_q : q ≠ cache.fresh := fun e => hfresh (e ▸ hqmem)
    set n := cache.fresh with hndef
    set node : cacheNode :=
      { prev := (cache.arena h).prev, next := h, value := value, key := key }
      with hnode
    set a1 := writeNode cache.arena n node with ha1
    set a2 := writeNode a1 (cache.arena h).prev
      { a1 (cache.arena h).prev with next := n } with ha2
    set a3 := writeNode a2 h { a2 h with prev := n } with ha3
    have hstep : addToHead cache key value
        = (n, { cache with arena := a3, head := some n, fresh := n + 1 }) := by
      simp only [addToHead, hh]
    have ha3n : a3 n = node := by
      simp [ha3, ha2, ha1, writeNode, hhprev, Ne.symm hn_ne_h, Ne.symm hn_ne_q]
    have ha3h_eq : h = q → a3 h = { cache.arena h with prev := n, next := n } := by
      intro hq
      simp [ha3, ha2, ha1, writeNode, hhprev, ← hq, hn_ne_h]
    have ha3h_ne : h ≠ q → a3 h = { cache.arena h with prev := n } := by
      intro hq
      simp [ha3, ha2, ha1, writeNode, hhprev, hq, hn_ne_h]
    have ha3q : h ≠ q → a3 q = { cache.arena q with next := n } := by
      intro hq
      simp [ha3, ha2, ha1, writeNode, hhprev, Ne.symm hq, hn_ne_q]
    have ha3other : ∀ x, x ≠ n → x ≠ h → x ≠ q → a3 x = cache.arena x := by
      intro x hxn hxh hxq
      simp [ha3, ha2, ha1, writeNode, hhprev, hxn, hxh, hxq]
    have ha3h_prev : (a3 h).prev = n := by
      by_cases hq : h = q
      · rw [ha3h_eq hq]
      · rw [ha3h_ne hq]
    have ha3q_next : (a3 q).next = n := by
      by_cases hq : h = q
      · rw [← hq, ha3h_eq hq]
      · rw [ha3q hq]
    have harena : (addToHead cache key value).2.arena = a3 := by rw [hstep]
    have hfst : (addToHead cache key value).1 = n := by rw [hstep]
    have hhd : (addToHead cache key value).2.head = some n := by rw [hstep]
    have hfr : (addToHead cache key value).2.fresh = n + 1 := by rw [hstep]
    have hst : (addToHead cache key value).2.store = cache.store := by rw [hstep]
    have hcap : (addToHead cache key value).2.capacity = cache.capacity := by
      rw [hstep]
    refine ⟨hfst, ⟨?_, ?_⟩, hnodup', hhd, hfr, hst, hcap,
      by rw [harena, ha3n], by rw [harena, ha3n],
      by rw [harena, ha3n, hnode]; rfl⟩
    · rw [harena, List.chain'_cons]
      refine ⟨⟨by rw [ha3n], ha3h_prev⟩, ?_⟩
      refine chain_adj_mono (h :: t) hring.1 ?_ ?_
      · intro x hx
        have hxl : x ∈ h :: t := List.dropLast_subset _ hx
        have hxn : x ≠ n := fun e => hfresh (e ▸ hxl)
        have hxq : x ≠ q := fun e =>
          getLast_not_mem_dropLast hne hnodup (by rw [← hqdef, ← e]; exact hx)
        by_cases hxh : x = h
        · subst hxh
          rw [ha3h_ne fun e => hxq e]
        · rw [ha3other x hxn hxh hxq]
      · intro y hy
        have hyl : y ∈ h :: t := List.mem_cons_of_mem h hy
        have hyn : y ≠ n := fun e => hfresh (e ▸ hyl)
        have hyh : y ≠ h := fun e => (List.nodup_cons.1 hnodup).1 (e ▸ hy)
        by_cases hyq : y = q
        · subst hyq
          rw [ha3q fun e => hyh e.symm]
        · rw [ha3other y hyn hyh hyq]
    · rw [harena]
      intro x hx y hy
      have hx' : q = x := by
        rw [List.getLast?_cons_cons, hlast] at hx
        simpa using hx
      have hy' : n = y := by simpa using hy
      subst hx'; subst hy'
      refine ⟨ha3q_next, ?_⟩
      rw [ha3n, hnode]
      exact hhprev

theorem addToTail_spec {cache : LruCache} {l : List Nat}
    (hring : IsRing cache.arena l) (hnodup : l.Nodup)
    (hhead : cache.head = l.head?) (hbound : ∀ x ∈ l, x < cache.fresh)
    (key value : String) :
    (addToTail cache key value).1 = cache.fresh ∧
    IsRing (addToTail cache key value).2.arena (l ++ [cache.fresh]) ∧
    (l ++ [cache.fresh]).Nodup ∧
    (addToTail cache key value).2.head = (l ++ [cache.fresh]).head? ∧
    (addToTail cache key value).2.fresh = cache.fresh + 1 ∧
    (addToTail cache key value).2.store = cache.store ∧
    (addToTail cache key value).2.capacity = cache.capacity ∧
    ((addToTail cache key value).2.arena cache.fresh).key = key ∧
    ((addToTail cache key value).2.arena cache.fresh).value = value := by
  obtain ⟨h1, hring', hnodup', hhd, hfr, hst, hcap, hkey, hval, hnext⟩ :=
    addToHead_spec hring hnodup hhead hbound key value
  have ht1 : (addToTail cache key value).1 = (addToHead cache key value).1 := by
    simp only [addToTail]
  have ht2a : (addToTail cache key value).2.arena
      = (addToHead cache key value).2.arena := by
    simp only [addToTail]
  have ht2f : (addToTail cache key value).2.fresh
      = (addToHead cache key value).2.fresh := by
    simp only [addToTail]
  have ht2s : (addToTail cache key value).2.store
      = (addToHead cache key value).2.store := by
    simp only [addToTail]
  have ht2c : (addToTail cache key value).2.capacity
      = (addToHead cache key value).2.capacity := by
    simp only [addToTail]
  have ht2h : (addToTail cache key value).2.head
      = some (((addToHead cache key value).2.arena
          (addToHead cache key value).1).next) := by
    simp only [addToTail]
  refine ⟨ht1.trans h1, ?_, ?_, ?_, ht2f.trans hfr, ht2s.trans hst,
    ht2c.trans hcap, ?_, ?_⟩
  · rw [ht2a]
    exact IsRing.swap [cache.fresh] l hring'
  · exact (List.perm_append_comm.nodup_iff).2 hnodup'
  · rw [ht2h, h1, hnext]
    rcases l with _ | ⟨a, t⟩ <;> rfl
  · rw [ht2a]; exact hkey
  · rw [ht2a]; exact hval

theorem writeNode_keyval (A : Arena) (i : Nat) (nd : cacheNode)
    (hkey : nd.key = (A i).key) (hvalue : nd.value = (A i).value) (x : Nat) :
    ((writeNode A i nd) x).key = (A x).key ∧
    ((writeNode A i nd) x).value = (A x).value := by
  by_cases hx : x = i
  · subst hx; rw [writeNode_same]; exact ⟨hkey, hvalue⟩
  · rw [writeNode_other _ _ hx]; exact ⟨rfl, rfl⟩

theorem removeFromList_fields (cache : LruCache) (n x : Nat) :
    ((removeFromList cache n).arena x).key = (cache.arena x).key ∧
    ((removeFromList cache n).arena x).value = (cache.arena x).value := by
  by_cases h1 : (cache.arena n).next = n
  · simp [removeFromList, h1]
  · have harena : (removeFromList cache n).arena
        = writeNode (writeNode cache.arena ((cache.arena n).prev)
            { cache.arena ((cache.arena n).prev) with next := (cache.arena n).next })
          ((cache.arena n).next)
          { (writeNode cache.arena ((cache.arena n).prev)
              { cache.arena ((cache.arena n).prev) with next := (cache.arena n).next })
              ((cache.arena n).next) with prev := (cache.arena n).prev } := by
      by_cases hP : cache.head = some n
      · simp only [removeFromList, if_neg h1, if_pos hP]
      · simp only [removeFromList, if_neg h1, if_neg hP]
    rw [harena]
    have s1 := writeNode_keyval cache.arena ((cache.arena n).prev)
      { cache.arena ((cache.arena n).prev) with next := (cache.arena n).next }
      rfl rfl
    have s2 := writeNode_keyval
      (writeNode cache.arena ((cache.arena n).prev)
        { cache.arena ((cache.arena n).prev) with next := (cache.arena n).next })
      ((cache.arena n).next)
      { (writeNode cache.arena ((cache.arena n).prev)
          { cache.arena ((cache.arena n).prev) with next := (cache.arena n).next })
          ((cache.arena n).next) with prev := (cache.arena n).prev }
      rfl rfl
    exact ⟨(s2 x).1.trans (s1 x).1, (s2 x).2.trans (s1 x).2⟩

theorem removeFromList_spec {cache : LruCache} {l₁ l₂ : List Nat} {n : Nat}
    (hring : IsRing cache.arena (l₁ ++ n :: l₂))
    (hnodup : (l₁ ++ n :: l₂).Nodup)
    (hhead : cache.head = (l₁ ++ n :: l₂).head?) :
    IsRing (removeFromList cache n).arena (l₁ ++ l₂) ∧
    (l₁ ++ l₂).Nodup ∧
    (removeFromList cache n).head = (l₁ ++ l₂).head? ∧
    (removeFromList cache n).store = cache.store ∧
    (removeFromList cache n).capacity = cache.capacity ∧
    (removeFromList cache n).fresh = cache.fresh := by
  have hmid : (n :: (l₁ ++ l₂)).Nodup := List.nodup_middle.1 hnodup
  have hnotin : n ∉ l₁ ++ l₂ := (List.nodup_cons.1 hmid).1
  have hnodup2 : (l₁ ++ l₂).Nodup := (List.nodup_cons.1 hmid).2
  have hperm : (l₁ ++ n :: l₂).Perm (n :: (l₂ ++ l₁)) := by
    have h0 : (l₁ ++ n :: l₂).Perm ((n :: l₂) ++ l₁) := List.perm_append_comm
    simpa using h0
  have hnodup₀ : (n :: (l₂ ++ l₁)).Nodup := hperm.nodup_iff.1 hnodup
  have hring₀ : IsRing cache.arena (n :: (l₂ ++ l₁)) := by
    have h0 := IsRing.swap l₁ (n :: l₂) hring
    simpa using h0
  rcases hr : l₂ ++ l₁ with _ | ⟨m, r'⟩
  · -- the node is alone in the ring
    obtain ⟨hl2, hl1⟩ := List.append_eq_nil.1 hr
    subst hl1; subst hl2
    have hself := hring₀.2 n (by rfl) n (by rfl)
    have hcond : (cache.arena n).next = n := hself.1
    have hstep : removeFromList cache n = { cache with head := none } := by
      simp only [removeFromList, if_pos hcond]
    rw [hstep]
    refine ⟨⟨List.chain'_nil, ?_⟩, by simp, rfl, rfl, rfl, rfl⟩
    intro x hx
    simp at hx
  · -- at least two nodes in the ring
    rw [hr] at hring₀ hnodup₀
    have hchain := hring₀.1
    rw [List.chain'_cons] at hchain
    have hs : (cache.arena n).next = m := hchain.1.1
    have hmprev : (cache.arena m).prev = n := hchain.1.2
    have hmne : m ≠ n := fun e => (List.nodup_cons.1 hnodup₀).1 (e ▸ List.mem_cons_self m r')
    have hcond : ¬((cache.arena n).next = n) := by rw [hs]; exact hmne
    have hne : (m :: r') ≠ ([] : List Nat) := by simp
    have hqmem0 : (m :: r').getLast hne ∈ m :: r' := List.getLast_mem hne
    set q := (m :: r').getLast hne with hqdef
    have hlast : (n :: m :: r').getLast? = some q := by
      rw [List.getLast?_cons_cons]
      exact List.getLast?_eq_getLast _ hne
    have hwrap := hring₀.2 q (by rw [hlast]; rfl) n rfl
    have hqn : (cache.arena q).next = n := hwrap.1
    have hp : (cache.arena n).prev = q := hwrap.2
    have hqn_ne : q ≠ n := fun e => (List.nodup_cons.1 hnodup₀).1 (e ▸ hqmem0)
    have hnodup1 : (m :: r').Nodup := (List.nodup_cons.1 hnodup₀).2
    set a1 := writeNode cache.arena ((cache.arena n).prev)
      { cache.arena ((cache.arena n).prev) with next := (cache.arena n).next }
      with ha1
    set a2 := writeNode a1 ((cache.arena n).next)
      { a1 ((cache.arena n).next) with prev := (cache.arena n).prev } with ha2
    have hstep : removeFromList cache n
        = { head := (if cache.head = some n then some ((cache.arena n).next)
              else cache.head),
            capacity := cache.capacity, store := cache.store,
            arena := a2, fresh := cache.fresh } := by
      by_cases hP : cache.head = some n
      · simp only [removeFromList, if_neg hcond, if_pos hP]
      · simp only [removeFromList, if_neg hcond, if_neg hP]
    have harena : (removeFromList cache n).arena = a2 := by rw [hstep]
    have hhd : (removeFromList cache n).head
        = (if cache.head = some n then some ((cache.arena n).next)
            else cache.head) := by rw [hstep]
    have ha2m_eq : q = m → a2 m = { cache.arena m with prev := m, next := m } := by
      intro hqm
      simp [ha2, ha1, writeNode, hp, hs, hqm]
    have ha2m_ne : q ≠ m → a2 m = { cache.arena m with prev := q } := by
      intro hqm
      simp [ha2, ha1, writeNode, hp, hs, Ne.symm hqm]
    have ha2q : q ≠ m → a2 q = { cache.arena q with next := m } := by
      intro hqm
      simp [ha2, ha1, writeNode, hp, hs, hqm]
    have ha2other : ∀ x, x ≠ q → x ≠ m → a2 x = cache.arena x := by
      intro x hxq hxm
      simp [ha2, ha1, writeNode, hp, hs, hxq, hxm]
    have ha2q_next : (a2 q).next = m := by
      by_cases hqm : q = m
      · rw [hqm, ha2m_eq hqm]
      · rw [ha2q hqm]
    have ha2m_prev : (a2 m).prev = q := by
      by_cases hqm : q = m
      · rw [ha2m_eq hqm, hqm]
      · rw [ha2m_ne hqm]
    have hringrest : IsRing a2 (m :: r') := by
      refine ⟨?_, ?_⟩
      · refine chain_adj_mono (m :: r') (List.chain'_cons.1 hring₀.1).2 ?_ ?_
        · intro x hx
          have hxq : x ≠ q := fun e =>
            getLast_not_mem_dropLast hne hnodup1 (by rw [← hqdef, ← e]; exact hx)
          by_cases hxm : x = m
          · subst hxm
            rw [ha2m_ne fun e => hxq e.symm]
          · rw [ha2other x hxq hxm]
        · intro y hy
          have hym : y ≠ m := fun e => (List.nodup_cons.1 hnodup1).1 (e ▸ hy)
          by_cases hyq : y = q
          · subst hyq
            rw [ha2q fun e => hym e]
          · rw [ha2other y hyq hym]
      · intro x hx y hy
        have hx' : q = x := by
          rw [List.getLast?_eq_getLast _ hne] at hx
          simpa [← hqdef] using hx
        have hy' : m = y := by simpa using hy
        subst hx'; subst hy'
        exact ⟨ha2q_next, ha2m_prev⟩
    refine ⟨?_, hnodup2, ?_, by rw [hstep], by rw [hstep], by rw [hstep]⟩
    · rw [harena]
      have h0 : IsRing a2 (l₂ ++ l₁) := by rw [hr]; exact hringrest
      exact IsRing.swap l₂ l₁ h0
    · rw [hhd, hs]
      rcases hl1 : l₁ with _ | ⟨x, l₁'⟩
      · subst hl1
        have hP : cache.head = some n := by simpa using hhead
        rw [if_pos hP]
        have hl2 : l₂ = m :: r' := by simpa using hr
        rw [hl2]
        rfl
      · subst hl1
        have hxn : x ≠ n := by
          intro e
          exact hnotin (by simp [e])
        have hP : ¬(cache.head = some n) := by
          rw [hhead]
          simp [hxn]
        rw [if_neg hP, hhead]
        rfl

theorem lookupStore_eq_none {s : List (String × Nat)} {k : String} :
    lookupStore s k = none ↔ ∀ p ∈ s, p.1 ≠ k := by
  induction s with
  | nil => simp [lookupStore]
  | cons p rest ih =>
      rcases p with ⟨k', n'⟩
      by_cases hk : k' = k
      · subst hk; simp [lookupStore]
      · simp [lookupStore, hk, ih]

theorem lookupStore_decomp {s : List (String × Nat)} {k : String} {n : Nat}
    (h : lookupStore s k = some n) :
    ∃ s₁ s₂, s = s₁ ++ (k, n) :: s₂ ∧ ∀ p ∈ s₁, p.1 ≠ k := by
  induction s with
  | nil => simp [lookupStore] at h
  | cons p rest ih =>
      rcases p with ⟨k', n'⟩
      by_cases hk : k' = k
      · subst hk
        rw [lookupStore, if_pos rfl] at h
        obtain rfl : n' = n := by simpa using h
        exact ⟨[], rest, rfl, by simp⟩
      · rw [lookupStore, if_neg hk] at h
        obtain ⟨s₁, s₂, heq, hne⟩ := ih h
        refine ⟨(k', n') :: s₁, s₂, by rw [heq]; rfl, ?_⟩
        intro p hp
        rcases List.mem_cons.1 hp with rfl | hp'
        · exact hk
        · exact hne p hp'

theorem lookupStore_of_mem {s : List (String × Nat)}
    (hnd : (s.map Prod.fst).Nodup) {k : String} {n : Nat} (h : (k, n) ∈ s) :
    lookupStore s k = some n := by
  induction s with
  | nil => simp at h
  | cons p rest ih =>
      rcases p with ⟨k', n'⟩
      rcases List.mem_cons.1 h with heq | hmem
      · have h1 : k = k' := congrArg Prod.fst heq
        have h2 : n = n' := congrArg Prod.snd heq
        subst h1; subst h2
        rw [lookupStore, if_pos rfl]
      · have hk : k' ≠ k := by
          intro e; subst e
          exact (List.nodup_cons.1 (by simpa using hnd)).1
            (List.mem_map_of_mem Prod.fst hmem)
        rw [lookupStore, if_neg hk]
        exact ih (List.nodup_cons.1 (by simpa using hnd)).2 hmem

theorem lookupStore_present {s₁ s₂ : List (String × Nat)} {k : String} (n : Nat)
    (hne : ∀ p ∈ s₁, p.1 ≠ k) :
    lookupStore (s₁ ++ (k, n) :: s₂) k = some n := by
  induction s₁ with
  | nil => simp [lookupStore]
  | cons p rest ih =>
      rcases p with ⟨k', n'⟩
      have hk : k' ≠ k := hne (k', n') (by simp)
      rw [List.cons_append, lookupStore, if_neg hk]
      exact ih fun p hp => hne p (List.mem_cons_of_mem _ hp)

theorem setStore_absent {s : List (String × Nat)} {k : String} (n : Nat)
    (h : ∀ p ∈ s, p.1 ≠ k) : setStore s k n = s ++ [(k, n)] := by
  induction s with
  | nil => rfl
  | cons p rest ih =>
      rcases p with ⟨k', n'⟩
      have hk : k' ≠ k := h (k', n') (by simp)
      rw [setStore, if_neg hk, ih fun p hp => h p (List.mem_cons_of_mem _ hp)]
      rfl

theorem setStore_present {s₁ s₂ : List (String × Nat)} {k : String} {m : Nat}
    (n : Nat) (hne : ∀ p ∈ s₁, p.1 ≠ k) :
    setStore (s₁ ++ (k, m) :: s₂) k n = s₁ ++ (k, n) :: s₂ := by
  induction s₁ with
  | nil => simp [setStore]
  | cons p rest ih =>
      rcases p with ⟨k', n'⟩
      have hk : k' ≠ k := hne (k', n') (by simp)
      rw [List.cons_append, setStore, if_neg hk,
        ih fun p hp => hne p (List.mem_cons_of_mem _ hp)]
      rfl

theorem eraseStore_present {s₁ s₂ : List (String × Nat)} {k : String} {m : Nat}
    (hne : ∀ p ∈ s₁, p.1 ≠ k) :
    eraseStore (s₁ ++ (k, m) :: s₂) k = s₁ ++ s₂ := by
  induction s₁ with
  | nil => simp [eraseStore]
  | cons p rest ih =>
      rcases p with ⟨k', n'⟩
      have hk : k' ≠ k := hne (k', n') (by simp)
      rw [List.cons_append, eraseStore, if_neg hk,
        ih fun p hp => hne p (List.mem_cons_of_mem _ hp)]
      rfl

theorem IsRing.congr {a a' : Arena}
    (h : ∀ x, (a' x).next = (a x).next ∧ (a' x).prev = (a x).prev)
    {l : List Nat} (hr : IsRing a l) : IsRing a' l := by
  obtain ⟨hc, hw⟩ := hr
  refine ⟨List.Chain'.imp ?_ hc, ?_⟩
  · intro x y hxy
    exact ⟨(h x).1.trans hxy.1, (h y).2.trans hxy.2⟩
  · intro x hx y hy
    have hxy := hw x hx y hy
    exact ⟨(h x).1.trans hxy.1, (h y).2.trans hxy.2⟩

theorem addToTail_fields (cache : LruCache) (key value : String) {x : Nat}
    (hx : x ≠ cache.fresh) :
    ((addToTail cache key value).2.arena x).key = (cache.arena x).key ∧
    ((addToTail cache key value).2.arena x).value = (cache.arena x).value := by
  have h : (addToTail cache key value).2.arena
      = (addToHead cache key value).2.arena := by
    simp only [addToTail]
  rw [h]
  exact addToHead_fields cache key value hx

theorem perm_middle_erase {S₁ S₂ l₁ l₂ : List Nat} {n : Nat}
    (h : (S₁ ++ n :: S₂).Perm (l₁ ++ n :: l₂)) : (S₁ ++ S₂).Perm (l₁ ++ l₂) :=
  ((List.perm_middle.symm.trans h).trans List.perm_middle).cons_inv

theorem perm_middle_replace {S₁ S₂ l₁ l₂ : List Nat} {n : Nat} (f : Nat)
    (h : (S₁ ++ n :: S₂).Perm (l₁ ++ n :: l₂)) :
    (S₁ ++ f :: S₂).Perm (f :: (l₁ ++ l₂)) :=
  List.perm_middle.trans ((perm_middle_erase h).cons f)

theorem Get_found_spec {cache : LruCache} {l : List Nat} (hinv : Inv cache l)
    {k : String} {n : Nat} (hlk : lookupStore cache.store k = some n) :
    (Get cache k).1 = (cache.arena n).value ∧
    (Get cache k).2.1 = true ∧
    (∃ l', Inv (Get cache k).2.2 l') ∧
    Len (Get cache k).2.2 = Len cache ∧
    Capacity (Get cache k).2.2 = Capacity cache := by
  obtain ⟨s₁, s₂, hsdecomp, hs1ne⟩ := lookupStore_decomp hlk
  have hmem : (k, n) ∈ cache.store := by rw [hsdecomp]; simp
  have hnl : n ∈ l := hinv.store_perm.mem_iff.1 (List.mem_map_of_mem Prod.snd hmem)
  obtain ⟨l₁, l₂, rfl⟩ := List.append_of_mem hnl
  obtain ⟨hring1, hnodup1, hhead1, hst1, hcap1, hfr1⟩ :=
    removeFromList_spec hinv.ring hinv.nodup hinv.head_eq
  set c1 := removeFromList cache n with hc1
  have hrf := removeFromList_fields cache n
  rw [← hc1] at hrf
  have hbound1 : ∀ x ∈ l₁ ++ l₂, x < c1.fresh := by
    intro x hx
    rw [hfr1]
    rcases List.mem_append.1 hx with hx1 | hx2
    · exact hinv.bound x (List.mem_append_left _ hx1)
    · exact hinv.bound x (List.mem_append_right _ (List.mem_cons_of_mem _ hx2))
  obtain ⟨hax1, haring, hanodup, hahead, hafr, hast, hacap, hakey, haval, -⟩ :=
    addToHead_spec hring1 hnodup1 hhead1 hbound1 k
      ((c1.arena n).value)
  set r := addToHead c1 k ((c1.arena n).value) with hrdef
  have hgeteq : Get cache k
      = ((r.2.arena n).value, true,
          { r.2 with store := setStore r.2.store k r.1 }) := by
    simp only [Get, hlk, hc1, hrdef]
  have hn_lt : n < cache.fresh := hinv.bound n (by simp)
  have hn_ne : n ≠ c1.fresh := by rw [hfr1]; exact Nat.ne_of_lt hn_lt
  have haf := addToHead_fields c1 k ((c1.arena n).value) hn_ne
  rw [← hrdef] at haf
  have hvaln : (r.2.arena n).value = (cache.arena n).value :=
    haf.2.trans (hrf n).2
  have hstore3 : setStore r.2.store k r.1 = s₁ ++ (k, c1.fresh) :: s₂ := by
    rw [hast, hst1, hax1, hsdecomp]
    exact setStore_present _ hs1ne
  have hkeys_same : (s₁ ++ (k, c1.fresh) :: s₂).map Prod.fst
      = cache.store.map Prod.fst := by
    rw [hsdecomp]; simp
  have hlen_same : (s₁ ++ (k, c1.fresh) :: s₂).length = cache.store.length := by
    rw [hsdecomp]; simp
  have hpermold : (s₁.map Prod.snd ++ n :: s₂.map Prod.snd).Perm
      (l₁ ++ n :: l₂) := by
    have h0 := hinv.store_perm
    rw [hsdecomp] at h0
    simpa using h0
  rw [hgeteq]
  refine ⟨hvaln, rfl, ⟨c1.fresh :: (l₁ ++ l₂), ?_, ?_, ?_, ?_, ?_, ?_, ?_, ?_, ?_⟩,
    ?_, ?_⟩
  · exact haring
  · exact hanodup
  · rw [hahead]; rfl
  · intro x hx
    rw [hafr]
    rcases List.mem_cons.1 hx with rfl | hx'
    · omega
    · have := hbound1 x hx'
      omega
  · show (setStore r.2.store k r.1).map Prod.snd |>.Perm _
    rw [hstore3]
    have := perm_middle_replace c1.fresh hpermold
    simpa using this
  · intro p hp
    show (r.2.arena p.2).key = p.1
    rw [hstore3] at hp
    rcases List.mem_append.1 hp with hp1 | hp2
    · have hpold : p ∈ cache.store := by
        rw [hsdecomp]; exact List.mem_append_left _ hp1
      have hplt : p.2 < cache.fresh := by
        have : p.2 ∈ l₁ ++ n :: l₂ := hinv.store_perm.mem_iff.1
          (List.mem_map_of_mem Prod.snd hpold)
        exact hinv.bound _ this
      have hpne : p.2 ≠ c1.fresh := by rw [hfr1]; exact Nat.ne_of_lt hplt
      have haf' := addToHead_fields c1 k ((c1.arena n).value) hpne
      rw [← hrdef] at haf'
      rw [haf'.1, (hrf p.2).1]
      exact hinv.store_key p hpold
    · rcases List.mem_cons.1 hp2 with rfl | hp3
      · exact hakey
      · have hpold : p ∈ cache.store := by
          rw [hsdecomp]
          exact List.mem_append_right _ (List.mem_cons_of_mem _ hp3)
        have hplt : p.2 < cache.fresh := by
          have : p.2 ∈ l₁ ++ n :: l₂ := hinv.store_perm.mem_iff.1
            (List.mem_map_of_mem Prod.snd hpold)
          exact hinv.bound _ this
        have hpne : p.2 ≠ c1.fresh := by rw [hfr1]; exact Nat.ne_of_lt hplt
        have haf' := addToHead_fields c1 k ((c1.arena n).value) hpne
        rw [← hrdef] at haf'
        rw [haf'.1, (hrf p.2).1]
        exact hinv.store_key p hpold
  · show ((setStore r.2.store k r.1).map Prod.fst).Nodup
    rw [hstore3, hkeys_same]
    exact hinv.keys_nodup
  · show ((setStore r.2.store k r.1).length : Int) ≤ _
    rw [hstore3, hlen_same, hacap, hcap1]
    exact hinv.size_cap
  · show (0 : Int) < _
    rw [hacap, hcap1]
    exact hinv.cap_pos
  · show (setStore r.2.store k r.1).length = cache.store.length
    rw [hstore3, hlen_same]
  · show r.2.capacity = cache.capacity
    rw [hacap, hcap1]

theorem Set_update_eq {cache : LruCache} {k : String} {n : Nat} (v : String)
    (hlk : lookupStore cache.store k = some n) :
    Set cache k v = some (true,
      { cache with
          arena := writeNode cache.arena n { cache.arena n with value := v } }) := by
  simp only [Set, hlk]

theorem Set_update_inv {cache : LruCache} {l : List Nat} (hinv : Inv cache l)
    {k : String} {n : Nat} (v : String)
    (hlk : lookupStore cache.store k = some n) :
    Inv { cache with
        arena := writeNode cache.arena n { cache.arena n with value := v } } l := by
  have hpt : ∀ x,
      ((writeNode cache.arena n { cache.arena n with value := v }) x).next
        = (cache.arena x).next ∧
      ((writeNode cache.arena n { cache.arena n with value := v }) x).prev
        = (cache.arena x).prev ∧
      ((writeNode cache.arena n { cache.arena n with value := v }) x).key
        = (cache.arena x).key := by
    intro x
    by_cases hx : x = n
    · subst hx; rw [writeNode_same]; exact ⟨rfl, rfl, rfl⟩
    · rw [writeNode_other _ _ hx]; exact ⟨rfl, rfl, rfl⟩
  refine ⟨IsRing.congr (fun x => ⟨(hpt x).1, (hpt x).2.1⟩) hinv.ring,
    hinv.nodup, hinv.head_eq, hinv.bound, hinv.store_perm, ?_,
    hinv.keys_nodup, hinv.size_cap, hinv.cap_pos⟩
  intro p hp
  exact ((hpt p.2).2.2).trans (hinv.store_key p hp)

theorem evict_victim_ne {cache : LruCache} {l : List Nat} (hinv : Inv cache l)
    {k : String} (hlk : lookupStore cache.store k = none)
    {h' : Nat} (hh : cache.head = some h') (hl : l ≠ []) :
    (cache.arena ((cache.arena h').prev)).key ≠ k := by
  have hlast : l.getLast? = some (l.getLast hl) := List.getLast?_eq_getLast _ hl
  have hhd : l.head? = some h' := by rw [← hinv.head_eq, hh]
  have hwrap := hinv.ring.2 (l.getLast hl) (by rw [hlast]; rfl) h'
    (by rw [hhd]; rfl)
  have hprev : (cache.arena h').prev = l.getLast hl := hwrap.2
  have hGmem : l.getLast hl ∈ l := List.getLast_mem hl
  have hGsnd : l.getLast hl ∈ cache.store.map Prod.snd :=
    hinv.store_perm.mem_iff.2 hGmem
  obtain ⟨p, hpmem, hpsnd⟩ := List.mem_map.1 hGsnd
  have hpkey : (cache.arena (l.getLast hl)).key = p.1 := by
    rw [← hpsnd]; exact hinv.store_key p hpmem
  rw [hprev, hpkey]
  exact lookupStore_eq_none.1 hlk p hpmem

theorem Delete_found_spec {cache : LruCache} {l : List Nat} (hinv : Inv cache l)
    {k : String} {n : Nat} (hlk : lookupStore cache.store k = some n) :
    (Delete cache k).1 = true ∧
    (∃ l', Inv (Delete cache k).2 l') ∧
    Len (Delete cache k).2 + 1 = Len cache ∧
    Capacity (Delete cache k).2 = Capacity cache := by
  obtain ⟨s₁, s₂, hsdecomp, hs1ne⟩ := lookupStore_decomp hlk
  have hmem : (k, n) ∈ cache.store := by rw [hsdecomp]; simp
  have hnl : n ∈ l := hinv.store_perm.mem_iff.1 (List.mem_map_of_mem Prod.snd hmem)
  obtain ⟨l₁, l₂, rfl⟩ := List.append_of_mem hnl
  obtain ⟨hring1, hnodup1, hhead1, hst1, hcap1, hfr1⟩ :=
    removeFromList_spec hinv.ring hinv.nodup hinv.head_eq
  set c1 := removeFromList cache n with hc1
  have hrf := removeFromList_fields cache n
  rw [← hc1] at hrf
  have hnkey : (cache.arena n).key = k := hinv.store_key (k, n) hmem
  have hkeyeq : (c1.arena n).key = k := (hrf n).1.trans hnkey
  have hdeleq : Delete cache k
      = (true, { c1 with store := eraseStore c1.store ((c1.arena n).key) }) := by
    simp only [Delete, hlk, hc1]
  have hstore2 : eraseStore c1.store ((c1.arena n).key) = s₁ ++ s₂ := by
    rw [hkeyeq, hst1, hsdecomp]
    exact eraseStore_present hs1ne
  have hpermold : (s₁.map Prod.snd ++ n :: s₂.map Prod.snd).Perm
      (l₁ ++ n :: l₂) := by
    have h0 := hinv.store_perm
    rw [hsdecomp] at h0
    simpa using h0
  have hkeysold : (s₁.map Prod.fst ++ k :: s₂.map Prod.fst).Nodup := by
    have h0 := hinv.keys_nodup
    rw [hsdecomp] at h0
    simpa using h0
  rw [hdeleq]
  refine ⟨rfl, ⟨l₁ ++ l₂, ?_, hnodup1, ?_, ?_, ?_, ?_, ?_, ?_, ?_⟩, ?_, ?_⟩
  · exact hring1
  · exact hhead1
  · intro x hx
    show x < c1.fresh
    rw [hfr1]
    rcases List.mem_append.1 hx with hx1 | hx2
    · exact hinv.bound x (List.mem_append_left _ hx1)
    · exact hinv.bound x (List.mem_append_right _ (List.mem_cons_of_mem _ hx2))
  · show ((eraseStore c1.store ((c1.arena n).key)).map Prod.snd).Perm (l₁ ++ l₂)
    rw [hstore2]
    simpa using perm_middle_erase hpermold
  · intro p hp
    show (c1.arena p.2).key = p.1
    rw [hstore2] at hp
    have hpold : p ∈ cache.store := by
      rw [hsdecomp]
      rcases List.mem_append.1 hp with hp1 | hp2
      · exact List.mem_append_left _ hp1
      · exact List.mem_append_right _ (List.mem_cons_of_mem _ hp2)
    rw [(hrf p.2).1]
    exact hinv.store_key p hpold
  · show ((eraseStore c1.store ((c1.arena n).key)).map Prod.fst).Nodup
    rw [hstore2]
    have h1 : (k :: (s₁.map Prod.fst ++ s₂.map Prod.fst)).Nodup :=
      List.nodup_middle.1 hkeysold
    simpa using (List.nodup_cons.1 h1).2
  · show ((eraseStore c1.store ((c1.arena n).key)).length : Int) ≤ c1.capacity
    rw [hstore2, hcap1]
    have h0 := hinv.size_cap
    rw [hsdecomp] at h0
    simp only [List.length_append, List.length_cons] at h0 ⊢
    omega
  · show (0 : Int) < c1.capacity
    rw [hcap1]; exact hinv.cap_pos
  · show (eraseStore c1.store ((c1.arena n).key)).length + 1 = cache.store.length
    rw [hstore2, hsdecomp]
    simp
    omega
  · show c1.capacity = cache.capacity
    exact hcap1

theorem Set_insert_spec {cache : LruCache} {l : List Nat} (hinv : Inv cache l)
    {k : String} (hlk : lookupStore cache.store k = none) (v : String) :
    ∃ c', Set cache k v = some (false, c') ∧
      (∃ l', Inv c' l') ∧
      lookupStore c'.store k = some cache.fresh ∧
      (c'.arena cache.fresh).value = v ∧
      (c'.arena cache.fresh).key = k ∧
      c'.capacity = cache.capacity := by
  have hknotin : ∀ p ∈ cache.store, p.1 ≠ k := lookupStore_eq_none.1 hlk
  by_cases hcond : (cache.store.length : Int) = cache.capacity
  case neg =>
    obtain ⟨hax1, haring, hanodup, hahead, hafr, hast, hacap, hakey, haval⟩ :=
      addToTail_spec hinv.ring hinv.nodup hinv.head_eq hinv.bound k v
    set r := addToTail cache k v with hrdef
    have hseteq : Set cache k v
        = some (false, { r.2 with store := setStore r.2.store k r.1 }) := by
      simp only [Set, hlk, if_neg hcond, hrdef]
    have hstore' : setStore r.2.store k r.1 = cache.store ++ [(k, cache.fresh)] := by
      rw [hast, hax1]
      exact setStore_absent _ hknotin
    refine ⟨_, hseteq,
      ⟨l ++ [cache.fresh], haring, hanodup, hahead, ?_, ?_, ?_, ?_, ?_, ?_⟩,
      ?_, ?_, ?_, ?_⟩
    · intro x hx
      show x < r.2.fresh
      rw [hafr]
      rcases List.mem_append.1 hx with hx1 | hx2
      · have := hinv.bound x hx1; omega
      · have : x = cache.fresh := by simpa using hx2
        omega
    · show ((setStore r.2.store k r.1).map Prod.snd).Perm (l ++ [cache.fresh])
      rw [hstore']
      simpa using hinv.store_perm.append_right [cache.fresh]
    · intro p hp
      show (r.2.arena p.2).key = p.1
      rw [hstore'] at hp
      rcases List.mem_append.1 hp with hp1 | hp2
      · have hplt : p.2 < cache.fresh := hinv.bound _
          (hinv.store_perm.mem_iff.1 (List.mem_map_of_mem Prod.snd hp1))
        have hpne : p.2 ≠ cache.fresh := Nat.ne_of_lt hplt
        have haf := addToTail_fields cache k v hpne
        rw [← hrdef] at haf
        rw [haf.1]
        exact hinv.store_key p hp1
      · have : p = (k, cache.fresh) := by simpa using hp2
        rw [this]
        exact hakey
    · show ((setStore r.2.store k r.1).map Prod.fst).Nodup
      rw [hstore']
      rw [List.map_append]
      refine List.nodup_append.2 ⟨hinv.keys_nodup, by simp, ?_⟩
      intro a ha hb
      have hak : a = k := by simpa using hb
      subst hak
      obtain ⟨p, hpmem, hpfst⟩ := List.mem_map.1 ha
      exact hknotin p hpmem hpfst
    · show ((setStore r.2.store k r.1).length : Int) ≤ r.2.capacity
      rw [hstore', hacap]
      have h0 := hinv.size_cap
      simp only [List.length_append, List.length_singleton]
      push_cast
      omega
    · show (0 : Int) < r.2.capacity
      rw [hacap]; exact hinv.cap_pos
    · show lookupStore (setStore r.2.store k r.1) k = some cache.fresh
      rw [hstore']
      exact lookupStore_present _ hknotin
    · show (r.2.arena cache.fresh).value = v
      exact haval
    · show (r.2.arena cache.fresh).key = k
      exact hakey
    · show r.2.capacity = cache.capacity
      exact hacap
  case pos =>
    have hlpos : l ≠ [] := by
      intro he
      have hlen := hinv.store_perm.length_eq
      rw [he] at hlen
      simp only [List.length_map, List.length_nil] at hlen
      rw [hlen] at hcond
      have := hinv.cap_pos
      omega
    have hhd : cache.head = some (l.head hlpos) := by
      rw [hinv.head_eq]
      exact List.head?_eq_head hlpos
    set G := l.getLast hlpos with hGdef
    have hlast? : l.getLast? = some G := List.getLast?_eq_getLast _ hlpos
    have hwrap := hinv.ring.2 G (by rw [hlast?]; rfl) (l.head hlpos)
      (by rw [List.head?_eq_head hlpos]; rfl)
    have htl : (cache.arena (l.head hlpos)).prev = G := hwrap.2
    set c1 := removeFromList cache G with hc1
    set c2 : LruCache := { c1 with
        store := eraseStore c1.store ((c1.arena G).key) } with hc2
    set r := addToTail c2 k v with hrdef
    have hseteq : Set cache k v
        = some (false, { r.2 with store := setStore r.2.store k r.1 }) := by
      simp only [Set, hlk, if_pos hcond, hhd, htl, hc1, hc2, hrdef]
    have hsplit : l.dropLast ++ G :: [] = l := by
      simpa using List.dropLast_append_getLast hlpos
    have hringP : IsRing cache.arena (l.dropLast ++ G :: []) := by
      rw [hsplit]; exact hinv.ring
    have hnodupP : (l.dropLast ++ G :: []).Nodup := by
      rw [hsplit]; exact hinv.nodup
    have hheadP : cache.head = (l.dropLast ++ G :: []).head? := by
      rw [hsplit]; exact hinv.head_eq
    obtain ⟨hring1, hnodup1, hhead1, hst1, hcap1, hfr1⟩ :=
      removeFromList_spec hringP hnodupP hheadP
    rw [← hc1] at hring1 hhead1 hst1 hcap1 hfr1
    have hringD : IsRing c1.arena l.dropLast := by simpa using hring1
    have hnodupD : l.dropLast.Nodup := by simpa using hnodup1
    have hheadD : c1.head = l.dropLast.head? := by simpa using hhead1
    have hrf := removeFromList_fields cache G
    rw [← hc1] at hrf
    have hboundD : ∀ x ∈ l.dropLast, x < c1.fresh := by
      intro x hx
      rw [hfr1]
      exact hinv.bound x (List.dropLast_subset _ hx)
    have hGmem : G ∈ l := List.getLast_mem hlpos
    obtain ⟨p, hpmem, hpsnd⟩ := List.mem_map.1 (hinv.store_perm.mem_iff.2 hGmem)
    rcases p with ⟨kt, G'⟩
    obtain rfl : G' = G := hpsnd
    have hktkey : (cache.arena G).key = kt := hinv.store_key (kt, G) hpmem
    have hlkt : lookupStore cache.store kt = some G :=
      lookupStore_of_mem hinv.keys_nodup hpmem
    obtain ⟨s₁, s₂, hsdecomp, hs1ne⟩ := lookupStore_decomp hlkt
    have herase : eraseStore c1.store ((c1.arena G).key) = s₁ ++ s₂ := by
      rw [(hrf G).1, hktkey, hst1, hsdecomp]
      exact eraseStore_present hs1ne
    have hpermold : (s₁.map Prod.snd ++ G :: s₂.map Prod.snd).Perm
        (l.dropLast ++ G :: []) := by
      have h0 := hinv.store_perm
      rw [hsdecomp, ← hsplit] at h0
      simpa using h0
    have hpermD : ((s₁ ++ s₂).map Prod.snd).Perm l.dropLast := by
      have := perm_middle_erase hpermold
      simpa using this
    obtain ⟨hax1, haring, hanodup, hahead, hafr, hast, hacap, hakey, haval⟩ :=
      addToTail_spec (show IsRing c2.arena l.dropLast from hringD)
        hnodupD hheadD hboundD k v
    rw [← hrdef] at hax1 haring hahead hafr hast hacap hakey haval
    have hfr2 : c2.fresh = cache.fresh := hfr1
    rw [hfr2] at hax1 haring hanodup hahead hafr hakey haval
    have hsub : ∀ p ∈ s₁ ++ s₂, p ∈ cache.store := by
      intro p hp
      rw [hsdecomp]
      rcases List.mem_append.1 hp with hp1 | hp2
      · exact List.mem_append_left _ hp1
      · exact List.mem_append_right _ (List.mem_cons_of_mem _ hp2)
    have hstore'' : setStore r.2.store k r.1
        = (s₁ ++ s₂) ++ [(k, cache.fresh)] := by
      rw [hast, hax1]
      have hc2s : c2.store = s₁ ++ s₂ := herase
      rw [hc2s]
      exact setStore_absent _ fun p hp => hknotin p (hsub p hp)
    have hkeysold : (s₁.map Prod.fst ++ kt :: s₂.map Prod.fst).Nodup := by
      have h0 := hinv.keys_nodup
      rw [hsdecomp] at h0
      simpa using h0
    have hkeysD : ((s₁ ++ s₂).map Prod.fst).Nodup := by
      have h1 : (kt :: (s₁.map Prod.fst ++ s₂.map Prod.fst)).Nodup :=
        List.nodup_middle.1 hkeysold
      simpa using (List.nodup_cons.1 h1).2
    refine ⟨_, hseteq,
      ⟨l.dropLast ++ [cache.fresh], haring, hanodup, hahead, ?_, ?_, ?_, ?_, ?_,
        ?_⟩, ?_, ?_, ?_, ?_⟩
    · intro x hx
      show x < r.2.fresh
      rw [hafr]
      rcases List.mem_append.1 hx with hx1 | hx2
      · have := hboundD x hx1
        rw [hfr2] at this
        omega
      · have : x = cache.fresh := by simpa using hx2
        omega
    · show ((setStore r.2.store k r.1).map Prod.snd).Perm
        (l.dropLast ++ [cache.fresh])
      rw [hstore'']
      simpa using hpermD.append_right [cache.fresh]
    · intro p hp
      show (r.2.arena p.2).key = p.1
      rw [hstore''] at hp
      rcases List.mem_append.1 hp with hp1 | hp2
      · have hpold : p ∈ cache.store := hsub p hp1
        have hplt : p.2 < cache.fresh := hinv.bound _
          (hinv.store_perm.mem_iff.1 (List.mem_map_of_mem Prod.snd hpold))
        have hpne : p.2 ≠ c2.fresh := by rw [hfr2]; exact Nat.ne_of_lt hplt
        have haf := addToTail_fields c2 k v hpne
        rw [← hrdef] at haf
        rw [haf.1]
        show (c1.arena p.2).key = p.1
        rw [(hrf p.2).1]
        exact hinv.store_key p hpold
      · have : p = (k, cache.fresh) := by simpa using hp2
        rw [this]
        exact hakey
    · show ((setStore r.2.store k r.1).map Prod.fst).Nodup
      rw [hstore'', List.map_append]
      refine List.nodup_append.2 ⟨hkeysD, by simp, ?_⟩
      intro a ha hb
      have hak : a = k := by simpa using hb
      subst hak
      obtain ⟨p, hpmem', hpfst⟩ := List.mem_map.1 ha
      exact hknotin p (hsub p hpmem') hpfst
    · show ((setStore r.2.store k r.1).length : Int) ≤ r.2.capacity
      rw [hstore'', hacap]
      have hlenold : cache.store.length = s₁.length + s₂.length + 1 := by
        rw [hsdecomp]; simp; omega
      rw [hlenold] at hcond
      show ((((s₁ ++ s₂) ++ [(k, cache.fresh)]).length : Nat) : Int) ≤ c2.capacity
      have hcapc2 : c2.capacity = cache.capacity := hcap1
      rw [hcapc2]
      simp only [List.length_append, List.length_singleton]
      push_cast at hcond ⊢
      omega
    · show (0 : Int) < r.2.capacity
      rw [hacap]
      have hcapc2 : c2.capacity = cache.capacity := hcap1
      rw [hcapc2]
      exact hinv.cap_pos
    · show lookupStore (setStore r.2.store k r.1) k = some cache.fresh
      rw [hstore'']
      exact lookupStore_present _ fun p hp => hknotin p (hsub p hp)
    · show (r.2.arena cache.fresh).value = v
      exact haval
    · show (r.2.arena cache.fresh).key = k
      exact hakey
    · show r.2.capacity = cache.capacity
      rw [hacap]
      exact hcap1

theorem Get_absent_eq {cache : LruCache} {k : String}
    (hlk : lookupStore cache.store k = none) : Get cache k = ("", false, cache) := by
  simp only [Get, hlk]

theorem Delete_absent_eq {cache : LruCache} {k : String}
    (hlk : lookupStore cache.store k = none) : Delete cache k = (false, cache) := by
  simp only [Delete, hlk]

theorem NewCache_inv {cap : Int} {c : LruCache} (h : NewCache cap = some c) :
    Inv c [] := by
  by_cases hc : cap ≤ 0
  · rw [NewCache, if_pos hc] at h
    exact absurd h (by simp)
  · rw [NewCache, if_neg hc] at h
    have hceq : c = ⟨none, cap, [], fun _ => default, 0⟩ := by
      have := Option.some.inj h
      exact this.symm
    subst hceq
    refine ⟨⟨List.chain'_nil, ?_⟩, by simp, rfl, by simp, by simp, by simp,
      by simp, by simp; omega, by show (0 : Int) < cap; omega⟩
    intro x hx
    simp at hx

theorem reachable_inv {c : LruCache} (h : Reachable c) : CacheInv c := by
  induction h with
  | new cap c0 h0 => exact ⟨[], NewCache_inv h0⟩
  | get c0 k hr ih =>
      obtain ⟨l, hinv⟩ := ih
      cases hlk : lookupStore c0.store k with
      | none =>
          rw [Get_absent_eq hlk]
          exact ⟨l, hinv⟩
      | some n => exact (Get_found_spec hinv hlk).2.2.1
  | set c0 k v u c' hr hset ih =>
      obtain ⟨l, hinv⟩ := ih
      cases hlk : lookupStore c0.store k with
      | some n =>
          rw [Set_update_eq v hlk] at hset
          have h1 := Option.some.inj hset
          have h2 : c' = { c0 with
              arena := writeNode c0.arena n { c0.arena n with value := v } } :=
            (congrArg Prod.snd h1).symm
          subst h2
          exact ⟨l, Set_update_inv hinv v hlk⟩
      | none =>
          obtain ⟨c'', hseteq, hinv', -⟩ := Set_insert_spec hinv hlk v
          rw [hseteq] at hset
          have h1 := Option.some.inj hset
          have h2 : c' = c'' := (congrArg Prod.snd h1).symm
          subst h2
          exact hinv'
  | del c0 k hr ih =>
      obtain ⟨l, hinv⟩ := ih
      cases hlk : lookupStore c0.store k with
      | none =>
          rw [Delete_absent_eq hlk]
          exact ⟨l, hinv⟩
      | some n => exact (Delete_found_spec hinv hlk).2.1

theorem ring_succ_adj {a : Arena} {l : List Nat} (hring : IsRing a l)
    {x : Nat} (hx : x ∈ l) : ∃ y ∈ l, adj a x y := by
  obtain ⟨l₁, l₂, rfl⟩ := List.append_of_mem hx
  have h0 : IsRing a (x :: (l₂ ++ l₁)) := by
    have := IsRing.swap l₁ (x :: l₂) hring
    simpa using this
  rcases hr : l₂ ++ l₁ with _ | ⟨m, r'⟩
  · rw [hr] at h0
    refine ⟨x, by simp, h0.2 x rfl x rfl⟩
  · rw [hr] at h0
    have hchain := h0.1
    rw [List.chain'_cons] at hchain
    refine ⟨m, ?_, hchain.1⟩
    have hm : m ∈ l₂ ++ l₁ := by rw [hr]; simp
    rcases List.mem_append.1 hm with h1 | h2
    · exact List.mem_append_right _ (List.mem_cons_of_mem _ h1)
    · exact List.mem_append_left _ h2

theorem ring_pred_adj {a : Arena} {l : List Nat} (hring : IsRing a l)
    {x : Nat} (hx : x ∈ l) : ∃ z ∈ l, adj a z x := by
  obtain ⟨l₁, l₂, rfl⟩ := List.append_of_mem hx
  have h0 : IsRing a ((l₂ ++ l₁) ++ [x]) := by
    have h1 : IsRing a (x :: (l₂ ++ l₁)) := by
      have := IsRing.swap l₁ (x :: l₂) hring
      simpa using this
    exact IsRing.swap [x] (l₂ ++ l₁) h1
  rcases hr : l₂ ++ l₁ with _ | ⟨m, r'⟩
  · rw [hr] at h0
    refine ⟨x, by simp, h0.2 x (by simp) x (by simp)⟩
  · rw [hr] at h0
    have hchain := h0.1
    rw [List.chain'_append] at hchain
    obtain ⟨-, -, hlink⟩ := hchain
    have hne : (m :: r') ≠ ([] : List Nat) := by simp
    refine ⟨(m :: r').getLast hne, ?_, ?_⟩
    · have hm : (m :: r').getLast hne ∈ l₂ ++ l₁ := by
        rw [hr]; exact List.getLast_mem hne
      rcases List.mem_append.1 hm with h1 | h2
      · exact List.mem_append_right _ (List.mem_cons_of_mem _ h1)
      · exact List.mem_append_left _ h2
    · exact hlink _ (by rw [List.getLast?_eq_getLast _ hne]; rfl) x rfl

theorem checkNode_true {cache : LruCache} {l : List Nat} (hinv : Inv cache l)
    {x : Nat} (hx : x ∈ l) : checkNode cache x = true := by
  simp only [checkNode, Bool.and_eq_true, decide_eq_true_eq]
  refine ⟨⟨?_, ?_⟩, ?_⟩
  · obtain ⟨y, -, hy⟩ := ring_succ_adj hinv.ring hx
    rw [hy.1, hy.2]
  · obtain ⟨z, -, hz⟩ := ring_pred_adj hinv.ring hx
    rw [hz.2, hz.1]
  · obtain ⟨p, hpmem, hpsnd⟩ := List.mem_map.1 (hinv.store_perm.mem_iff.2 hx)
    rcases p with ⟨kx, x'⟩
    have hx'eq : x' = x := hpsnd
    have hpmem' : (kx, x) ∈ cache.store := by rw [← hx'eq]; exact hpmem
    have hkey : (cache.arena x).key = kx := hinv.store_key (kx, x) hpmem'
    rw [hkey]
    exact lookupStore_of_mem hinv.keys_nodup hpmem'

theorem verifyLoop_spec {cache : LruCache} {l : List Nat} (hinv : Inv cache l) :
    ∀ (post : List Nat) (cur : Nat) (pre : List Nat),
      l = pre ++ cur :: post →
      verifyLoop cache (post.length + 2) pre cur = some l := by
  have hlenstore : cache.store.length = l.length := by
    have := hinv.store_perm.length_eq
    simpa using this
  intro post
  induction post with
  | nil =>
      intro cur pre hl
      have hnotmem : cur ∉ pre := by
        have h0 := hinv.nodup
        rw [hl] at h0
        have := List.nodup_middle.1 h0
        exact fun hmem => (List.nodup_cons.1 this).1 (by simpa using hmem)
      have hchk : checkNode cache cur = true :=
        checkNode_true hinv (by rw [hl]; simp)
      have hlne : l ≠ [] := by rw [hl]; simp
      have hnext : (cache.arena cur).next = l.head hlne := by
        have hlast : l.getLast? = some cur := by
          rw [hl]
          exact List.getLast?_append_of_ne_nil _ (by simp)
        have hwrap := hinv.ring.2 cur (by rw [hlast]; rfl) (l.head hlne)
          (by rw [List.head?_eq_head hlne]; rfl)
        exact hwrap.1
      show verifyLoop cache (0 + 2) pre cur = some l
      rw [show (0 + 2 : Nat) = 1 + 1 from rfl]
      rw [verifyLoop, if_neg hnotmem, hchk, if_pos rfl, hnext]
      have hmem2 : l.head hlne ∈ pre ++ [cur] := by
        rw [← hl]
        exact List.head_mem hlne
      rw [verifyLoop, if_pos hmem2]
      have hlen2 : (pre ++ [cur]).length = cache.store.length := by
        rw [hlenstore, hl]
      rw [if_pos hlen2, hl]
  | cons y post' ih =>
      intro cur pre hl
      have hnotmem : cur ∉ pre := by
        have h0 := hinv.nodup
        rw [hl] at h0
        have := List.nodup_middle.1 h0
        exact fun hmem => (List.nodup_cons.1 this).1 (List.mem_append_left _ hmem)
      have hchk : checkNode cache cur = true :=
        checkNode_true hinv (by rw [hl]; simp)
      have hnext : (cache.arena cur).next = y := by
        have hchain := hinv.ring.1
        rw [hl, List.chain'_append] at hchain
        obtain ⟨-, hchain2, -⟩ := hchain
        rw [List.chain'_cons] at hchain2
        exact hchain2.1.1
      show verifyLoop cache (post'.length + 1 + 2) pre cur = some l
      rw [show (post'.length + 1 + 2 : Nat) = (post'.length + 2) + 1 from rfl]
      rw [verifyLoop, if_neg hnotmem, hchk, if_pos rfl, hnext]
      exact ih y (pre ++ [cur]) (by rw [hl]; simp)

theorem inv_verify {cache : LruCache} {l : List Nat} (hinv : Inv cache l) :
    verifyIntegrity cache = true := by
  have hlenstore : cache.store.length = l.length := by
    have := hinv.store_perm.length_eq
    simpa using this
  rcases hl : l with _ | ⟨h, t⟩
  · have hsnil : cache.store = [] := by
      have h0 := hinv.store_perm
      rw [hl] at h0
      exact List.map_eq_nil_iff.1 h0.eq_nil
    have hhd : cache.head = none := by rw [hinv.head_eq, hl]; rfl
    simp [verifyIntegrity, hsnil, hhd]
  · have hlen : cache.store.length = t.length + 1 := by rw [hlenstore, hl]; rfl
    have hlen0 : ¬(cache.store.length = 0) := by omega
    have hsize : ¬((cache.store.length : Int) > cache.capacity) := by
      have := hinv.size_cap
      omega
    have hhd : cache.head = some h := by rw [hinv.head_eq, hl]; rfl
    have hloop : verifyLoop cache (cache.store.length + 1) [] h = some l := by
      have := verifyLoop_spec hinv t h [] hl
      rw [hlen]
      exact this
    rw [verifyIntegrity, if_neg hlen0, if_neg hsize, hhd]
    simp only [hloop, List.all_eq_true, decide_eq_true_eq]
    intro p hp
    exact hinv.store_perm.mem_iff.1 (List.mem_map_of_mem Prod.snd hp)

/-- The empty cache of capacity 1, the state returned by `NewCache 1`. -/
def emptyCache1 : LruCache :=
  { head := none, capacity := 1, store := [], arena := fun _ => default,
    fresh := 0 }

/-- The empty cache of capacity 2, the state returned by `NewCache 2`. -/
def emptyCache2 : LruCache :=
  { head := none, capacity := 2, store := [], arena := fun _ => default,
    fresh := 0 }

theorem newCache_one : NewCache 1 = some emptyCache1 := rfl

theorem newCache_two : NewCache 2 = some emptyCache2 := rfl

/-- Run `Set` for its state only.  On every concrete state used below `Set`
succeeds, so the fallback state is never reached. -/
def runSet (c : LruCache) (k v : String) : LruCache :=
  ((Set c k v).getD (false, c)).2

/-- State after `construct(2); set(a,1); set(b,2); set(c,3)` — the eviction
example of the specification, with no intervening `get`. -/
def cacheABC : LruCache :=
  runSet (runSet (runSet emptyCache2 "a" "1") "b" "2") "c" "3"

/-- State after `construct(2); set(a,1); set(b,2); set(a,9); set(c,3)` — the
update example of the specification. -/
def cacheUpdC : LruCache :=
  runSet (runSet (runSet (runSet emptyCache2 "a" "1") "b" "2") "a" "9") "c" "3"

/-- State after `construct(2); set(a,1); set(b,2); get(a); set(c,3)` — the
recency-refresh example of the specification. -/
def cacheGetPromo : LruCache :=
  runSet (Get (runSet (runSet emptyCache2 "a" "1") "b" "2") "a").2.2 "c" "3"

/-- State after `construct(1); set(a,1)`: one entry `a ↦ "1"` at capacity 1. -/
def demoCache : LruCache := runSet emptyCache1 "a" "1"

/-- C1 counterexample: in `construct(2); set(a,1); set(b,2); set(c,3)` the
final `set` evicts `b`, not `a`: afterwards `get(a)` returns `("1", true)`
and `get(b)` returns found=false, contradicting the claimed
`get(a) = (_, false)`, `get(b) = (2, true)`. -/
theorem eviction_order_counterexample :
    (Get cacheABC "a").1 = "1" ∧ (Get cacheABC "a").2.1 = true ∧
    (Get cacheABC "b").2.1 = false := by decide

/-- C1 (amended): inserting `N+1` distinct new keys with no intervening `get`
evicts the key inserted immediately before the overflowing `set` — the tail,
since new entries are placed at the tail — not the first-inserted key: after
`construct(2); set(a,1); set(b,2); set(c,3)`, `get(b)` returns found=false
while `get(a) = ("1", true)` and `get(c) = ("3", true)`. -/
theorem eviction_order_amended :
    NewCache 2 = some emptyCache2 ∧
    (Get cacheABC "b").1 = "" ∧ (Get cacheABC "b").2.1 = false ∧
    (Get cacheABC "a").1 = "1" ∧ (Get cacheABC "a").2.1 = true ∧
    (Get cacheABC "c").1 = "3" ∧ (Get cacheABC "c").2.1 = true :=
  ⟨rfl, by decide⟩

/-- C2 counterexample: in `construct(2); set(a,1); set(b,2); set(a,9);
set(c,3)` the final `set` evicts `b`, not `a`: afterwards `get(a)` returns
`("9", true)` and `get(b)` returns found=false. -/
theorem update_recency_counterexample :
    (Get cacheUpdC "a").1 = "9" ∧ (Get cacheUpdC "a").2.1 = true ∧
    (Get cacheUpdC "b").2.1 = false := by decide

/-- C2 (amended): updating an existing key via `set` indeed does not refresh
its recency (the list is untouched), but the key evicted by the final `set`
of the sequence `construct(2); set(a,1); set(b,2); set(a,9); set(c,3)` is the
tail `b`, not `a`: `get(a) = ("9", true)`, `get(b)` is found=false and
`get(c) = ("3", true)`. -/
theorem update_recency_amended :
    NewCache 2 = some emptyCache2 ∧
    (Get cacheUpdC "b").1 = "" ∧ (Get cacheUpdC "b").2.1 = false ∧
    (Get cacheUpdC "a").1 = "9" ∧ (Get cacheUpdC "a").2.1 = true ∧
    (Get cacheUpdC "c").1 = "3" ∧ (Get cacheUpdC "c").2.1 = true :=
  ⟨rfl, by decide⟩

/-- C5: a `get` on a present key promotes it to most-recently-used, so in
`construct(2); set(a,1); set(b,2); get(a); set(c,3)` the key evicted by the
final `set` is `b` and not `a`: `get(b)` returns found=false while
`get(a) = ("1", true)` and `get(c) = ("3", true)`. -/
theorem get_promotes_recency :
    NewCache 2 = some emptyCache2 ∧
    (Get cacheGetPromo "b").2.1 = false ∧
    (Get cacheGetPromo "a").1 = "1" ∧ (Get cacheGetPromo "a").2.1 = true ∧
    (Get cacheGetPromo "c").1 = "3" ∧ (Get cacheGetPromo "c").2.1 = true :=
  ⟨rfl, by decide⟩

/-- C9 counterexample: `Capacity` and `Len` perform no mutex operation at
all, so it is not the case that every public operation acquires and releases
the cache-wide lock. -/
theorem capacity_len_unlocked_counterexample :
    CapacityLockEvents ≠ [LockEvent.acquire, LockEvent.release] ∧
    LenLockEvents ≠ [LockEvent.acquire, LockEvent.release] := by decide

/-- C9 (amended): `Get`, `Set` and `Delete` acquire the cache-wide lock at
entry and release it on every exit path, but `Capacity` and `Len` read the
shared state without any mutex operation. -/
theorem lock_discipline_amended :
    GetLockEvents = [LockEvent.acquire, LockEvent.release] ∧
    SetLockEvents = [LockEvent.acquire, LockEvent.release] ∧
    DeleteLockEvents = [LockEvent.acquire, LockEvent.release] ∧
    CapacityLockEvents = [] ∧ LenLockEvents = [] := by decide

/-- C10: the two `Get` variants agree on the first lookup of `a ↦ "1"` in a
capacity-1 cache, but the `CacheNode` variant re-inserts the promoted node
with the zero value `""` (it passes the named return `value` instead of
`node.value`), so an immediately repeated `Get` returns `""` in that variant
while returning `"1"` in the `cacheNode` variant. -/
theorem getV2_value_divergence :
    (Get demoCache "a").1 = "1" ∧ (GetV2 demoCache "a").1 = "1" ∧
    (Get demoCache "a").2.1 = true ∧ (GetV2 demoCache "a").2.1 = true ∧
    (Get (Get demoCache "a").2.2 "a").1 = "1" ∧
    (GetV2 (GetV2 demoCache "a").2.2 "a").1 = "" := by decide

/-- C3: after any sequence of public operations on a validly constructed
cache, the integrity check of the repository's test helper passes: the size
is within capacity, the head is the empty marker exactly when the store is
empty, the circular traversal from the head visits exactly `|store|` distinct
bidirectionally-linked nodes and returns to the head, every visited node is
the store entry for its key, and every store entry is visited; moreover every
store binding `k ↦ n` has `n.key = k`. -/
theorem integrity_after_ops (c : LruCache) (h : Reachable c) :
    verifyIntegrity c = true ∧
    (Len c : Int) ≤ Capacity c ∧
    (c.head = none ↔ c.store = []) ∧
    (∀ p ∈ c.store, (c.arena p.2).key = p.1) := by
  obtain ⟨l, hinv⟩ := reachable_inv h
  refine ⟨inv_verify hinv, hinv.size_cap, ?_, hinv.store_key⟩
  constructor
  · intro hh
    rw [hinv.head_eq] at hh
    have hlnil : l = [] := List.head?_eq_none_iff.1 hh
    have h0 := hinv.store_perm
    rw [hlnil] at h0
    exact List.map_eq_nil_iff.1 h0.eq_nil
  · intro hs
    have h0 := hinv.store_perm
    rw [hs] at h0
    have hlnil : l = [] := by simpa using h0.symm.eq_nil
    rw [hinv.head_eq, hlnil]
    rfl

/-- C3 witness: the integrity conclusions evaluated on the concrete reachable
state `construct(2); set(a,1); get(a)`. -/
theorem integrity_after_ops_witness :
    verifyIntegrity (Get (runSet emptyCache2 "a" "1") "a").2.2 = true ∧
    (Len (Get (runSet emptyCache2 "a" "1") "a").2.2 : Int)
      ≤ Capacity (Get (runSet emptyCache2 "a" "1") "a").2.2 ∧
    ((Get (runSet emptyCache2 "a" "1") "a").2.2.head = none ↔
      (Get (runSet emptyCache2 "a" "1") "a").2.2.store = []) ∧
    (∀ p ∈ (Get (runSet emptyCache2 "a" "1") "a").2.2.store,
      ((Get (runSet emptyCache2 "a" "1") "a").2.2.arena p.2).key = p.1) :=
  integrity_after_ops _
    (Reachable.get _ "a"
      (Reachable.set emptyCache2 "a" "1" false _
        (Reachable.new 2 emptyCache2 newCache_two) rfl))

/-- C4: on every reachable cache state, `set(k, v)` succeeds, an immediate
`get(k)` then returns `(v, true)`, and whenever the `set` call's eviction
branch would run (key absent, store at capacity, non-empty list) the evicted
tail entry's key differs from `k` — the key just set is never the entry
evicted by that same call. -/
theorem set_get_roundtrip (c : LruCache) (h : Reachable c) (k v : String) :
    (∃ u c', Set c k v = some (u, c') ∧
      (Get c' k).1 = v ∧ (Get c' k).2.1 = true) ∧
    (∀ h' : Nat, c.head = some h' → lookupStore c.store k = none →
      (c.arena ((c.arena h').prev)).key ≠ k) := by
  obtain ⟨l, hinv⟩ := reachable_inv h
  constructor
  · cases hlk : lookupStore c.store k with
    | some n =>
        have hinv' := Set_update_inv hinv v hlk
        have hspec := Get_found_spec hinv' hlk
        refine ⟨true, _, Set_update_eq v hlk, ?_, hspec.2.1⟩
        rw [hspec.1]
        show (writeNode c.arena n { c.arena n with value := v } n).value = v
        rw [writeNode_same]
    | none =>
        obtain ⟨c', hseteq, ⟨l', hinv'⟩, hlkf, hval, hkey, hcap⟩ :=
          Set_insert_spec hinv hlk v
        refine ⟨false, c', hseteq, ?_, ?_⟩
        · rw [(Get_found_spec hinv' hlkf).1, hval]
        · exact (Get_found_spec hinv' hlkf).2.1
  · intro h' hh hlk
    have hlne : l ≠ [] := by
      intro he
      rw [hinv.head_eq, he] at hh
      simp at hh
    exact evict_victim_ne hinv hlk hh hlne

/-- C4 witness: the round-trip conclusions of `set_get_roundtrip` at the
reachable full capacity-1 state `construct(1); set(a,1)` with the new key
`b`, whose `set` evicts `a`. -/
theorem set_get_roundtrip_witness :
    ((∃ u c', Set demoCache "b" "7" = some (u, c') ∧
      (Get c' "b").1 = "7" ∧ (Get c' "b").2.1 = true) ∧
    (∀ h' : Nat, demoCache.head = some h' →
      lookupStore demoCache.store "b" = none →
      (demoCache.arena ((demoCache.arena h').prev)).key ≠ "b")) :=
  set_get_roundtrip demoCache
    (Reachable.set emptyCache1 "a" "1" false demoCache
      (Reachable.new 1 emptyCache1 newCache_one) rfl) "b" "7"

/-- C6: `set` on a key already present returns updated=true and overwrites
only that node's value: the head, the store, `Len`, `Capacity`, the
allocator, every node's links and key, and every other node's value are
unchanged, so no node moves and nothing is evicted. -/
theorem set_update_frame (c : LruCache) (k v : String) (n : Nat)
    (h : lookupStore c.store k = some n) :
    ∃ c', Set c k v = some (true, c') ∧
      c'.head = c.head ∧ c'.store = c.store ∧ c'.fresh = c.fresh ∧
      Len c' = Len c ∧ Capacity c' = Capacity c ∧
      (c'.arena n).value = v ∧
      (∀ x, (c'.arena x).next = (c.arena x).next ∧
        (c'.arena x).prev = (c.arena x).prev ∧
        (c'.arena x).key = (c.arena x).key) ∧
      (∀ x, x ≠ n → (c'.arena x).value = (c.arena x).value) := by
  refine ⟨_, Set_update_eq v h, rfl, rfl, rfl, rfl, rfl, ?_, ?_, ?_⟩
  · show (writeNode c.arena n { c.arena n with value := v } n).value = v
    rw [writeNode_same]
  · intro x
    refine ⟨?_, ?_, ?_⟩
    · show ((writeNode c.arena n { c.arena n with value := v }) x).next
        = (c.arena x).next
      by_cases hx : x = n
      · subst hx; rw [writeNode_same]
      · rw [writeNode_other _ _ hx]
    · show ((writeNode c.arena n { c.arena n with value := v }) x).prev
        = (c.arena x).prev
      by_cases hx : x = n
      · subst hx; rw [writeNode_same]
      · rw [writeNode_other _ _ hx]
    · show ((writeNode c.arena n { c.arena n with value := v }) x).key
        = (c.arena x).key
      by_cases hx : x = n
      · subst hx; rw [writeNode_same]
      · rw [writeNode_other _ _ hx]
  · intro x hx
    show ((writeNode c.arena n { c.arena n with value := v }) x).value
      = (c.arena x).value
    rw [writeNode_other _ _ hx]

/-- C6 witness: the frame conclusions of `set_update_frame` instantiated at
the state `construct(1); set(a,1)` (node index 0 holds `a`) updated by
`set(a, 9)`. -/
theorem set_update_frame_witness :
    ∃ c', Set demoCache "a" "9" = some (true, c') ∧
      c'.head = demoCache.head ∧ c'.store = demoCache.store ∧
      c'.fresh = demoCache.fresh ∧
      Len c' = Len demoCache ∧ Capacity c' = Capacity demoCache ∧
      (c'.arena 0).value = "9" ∧
      (∀ x, (c'.arena x).next = (demoCache.arena x).next ∧
        (c'.arena x).prev = (demoCache.arena x).prev ∧
        (c'.arena x).key = (demoCache.arena x).key) ∧
      (∀ x, x ≠ 0 → (c'.arena x).value = (demoCache.arena x).value) :=
  set_update_frame demoCache "a" "9" 0 (by decide)

/-- C7: `NewCache` fails exactly when the requested capacity is nonpositive;
on success the cache has an empty store, the empty-marker head, size 0 and
the requested capacity; and `Set` (the only other operation with a failure
point in the model, namely the nil-head dereference of the eviction branch)
succeeds on every reachable state, so no public operation other than
construction can produce an error. -/
theorem newCache_spec :
    (∀ cap : Int, NewCache cap = none ↔ cap ≤ 0) ∧
    (∀ (cap : Int) (c : LruCache), NewCache cap = some c →
      c.store = [] ∧ c.head = none ∧ c.capacity = cap ∧ Len c = 0) ∧
    (∀ (c : LruCache) (k v : String), Reachable c →
      (Set c k v).isSome = true) := by
  refine ⟨?_, ?_, ?_⟩
  · intro cap
    by_cases hc : cap ≤ 0 <;> simp [NewCache, hc]
  · intro cap c h
    by_cases hc : cap ≤ 0
    · rw [NewCache, if_pos hc] at h
      exact absurd h (by simp)
    · rw [NewCache, if_neg hc] at h
      have h2 := Option.some.inj h
      subst h2
      exact ⟨rfl, rfl, rfl, rfl⟩
  · intro c k v hr
    obtain ⟨l, hinv⟩ := reachable_inv hr
    cases hlk : lookupStore c.store k with
    | some n => rw [Set_update_eq v hlk]; rfl
    | none =>
        obtain ⟨c', hseteq, -⟩ := Set_insert_spec hinv hlk v
        rw [hseteq]
        rfl

/-- C7 witness: `NewCache 0` fails, `NewCache (-1)` fails, `NewCache 1`
yields the empty cache, and `Set` succeeds on a concrete reachable state. -/
theorem newCache_spec_witness :
    NewCache 0 = none ∧ NewCache (-1) = none ∧
    (emptyCache1.store = [] ∧ emptyCache1.head = none ∧
      emptyCache1.capacity = 1 ∧ Len emptyCache1 = 0) ∧
    (Set demoCache "z" "9").isSome = true :=
  ⟨(newCache_spec.1 0).2 (by norm_num),
   (newCache_spec.1 (-1)).2 (by norm_num),
   newCache_spec.2.1 1 emptyCache1 newCache_one,
   newCache_spec.2.2 demoCache "z" "9"
     (Reachable.set emptyCache1 "a" "1" false demoCache
       (Reachable.new 1 emptyCache1 newCache_one) rfl)⟩

/-- C8: on any cache state, `get` of a key absent from the store returns
`("", false)` and `delete` of it returns found=false, and in both cases the
resulting state is the input state itself, entirely unchanged. -/
theorem absent_key_noop (c : LruCache) (k : String)
    (h : lookupStore c.store k = none) :
    Get c k = ("", false, c) ∧ Delete c k = (false, c) :=
  ⟨Get_absent_eq h, Delete_absent_eq h⟩

/-- C8 witness: `get` and `delete` of the evicted key `b` on the concrete
state after `construct(2); set(a,1); set(b,2); set(c,3)` are no-ops. -/
theorem absent_key_noop_witness :
    Get cacheABC "b" = ("", false, cacheABC) ∧
    Delete cacheABC "b" = (false, cacheABC) :=
  absent_key_noop cacheABC "b" (by decide)

end GoCache
